import Mathlib

/-!
Verification of the pipeline-builder graph analysis service (`src/main.py`).

The service exposes a single endpoint `parse_pipeline` that receives a list of
node descriptors and a list of directed edges, builds an adjacency map keyed by
the declared node ids, runs a depth-first cycle detection over it, and returns
an envelope with `success`, a message, and (on success) the record
`{num_nodes, num_edges, is_dag}`.

The embedding below is a direct state-passing translation of the Python code:
Python's mutable `visited` / `rec_stack` sets become an explicit `DfsState`
threaded through the recursion, the dict comprehension building the adjacency
map becomes `initGraph` (duplicate ids collapse, first occurrence wins, exactly
as for a Python dict), the `graph[edge.source].append(edge.target)` loop with
its possible `KeyError` becomes `buildEdges : ... → Except String Graph`, and
the recursive `is_cyclic` is given a fuel parameter (`none` = fuel exhausted);
we prove that the fuel chosen by `runDagCheck` always suffices, so the fueled
function is a faithful rendering of the terminating recursion.  Wall-clock
response-time measurement is not modelled.
-/

namespace PipelineBuilder

/-- A node descriptor; only `id` is consumed by the analyzer, `type` and
`data` are pass-through metadata. -/
structure Node where
  id : String
  type : String
  data : List (String × String)
deriving DecidableEq

/-- A directed edge descriptor. -/
structure Edge where
  source : String
  target : String
deriving DecidableEq

/-- The adjacency map: association list from a node id to its ordered list of
out-neighbors (Python's insertion-ordered dict of lists). -/
abbrev Graph := List (String × List String)

/-- The two mutable sets of the Python cycle detection. -/
structure DfsState where
  visited : List String
  recStack : List String
deriving DecidableEq

/-- `graph.get(v, [])`. -/
def adjGet (g : Graph) (v : String) : List String :=
  match g.find? (fun p => decide (p.1 = v)) with
  | some p => p.2
  | none => []

/-- First-occurrence deduplication, accumulator of already seen keys. -/
def firstDedupAux (seen : List String) : List String → List String
  | [] => []
  | k :: rest =>
    if k ∈ seen then firstDedupAux seen rest
    else k :: firstDedupAux (k :: seen) rest

/-- Distinct keys in first-occurrence order, as produced by a Python dict
comprehension over a list with duplicate keys. -/
def firstDedup (l : List String) : List String := firstDedupAux [] l

/-- `graph = {node.id: [] for node in nodes}`. -/
def initGraph (nodes : List Node) : Graph :=
  (firstDedup (nodes.map Node.id)).map (fun k => (k, ([] : List String)))

/-- `graph[edge.source].append(edge.target)`: `KeyError` (carrying the missing
key) when `edge.source` is not a key of the map. -/
def addEdge (g : Graph) (e : Edge) : Except String Graph :=
  if e.source ∈ g.map Prod.fst then
    .ok (g.map (fun p => if p.1 = e.source then (p.1, p.2 ++ [e.target]) else p))
  else
    .error e.source

/-- The edge-ingestion loop `for edge in edges: ...`. -/
def buildEdges : Graph → List Edge → Except String Graph
  | g, [] => .ok g
  | g, e :: rest =>
    match addEdge g e with
    | .error k => .error k
    | .ok g2 => buildEdges g2 rest

/-- The body of `for neighbor in graph.get(v, []): ...` inside `is_cyclic`,
parameterized by the recursive call `rec` (which will be `isCyclic` at the
next-smaller fuel). -/
def neighLoopF (rec : String → DfsState → Option (Bool × DfsState)) :
    List String → DfsState → Option (Bool × DfsState)
  | [], s => some (false, s)
  | n :: rest, s =>
    if n ∈ s.visited then
      if n ∈ s.recStack then some (true, s) else neighLoopF rec rest s
    else
      match rec n s with
      | none => none
      | some (true, s2) => some (true, s2)
      | some (false, s2) => neighLoopF rec rest s2

/-- `is_cyclic(v)`: mark `v` visited and on the recursion stack, scan its
neighbors, and on a cycle-free return remove `v` from the recursion stack.
`none` means the fuel ran out. -/
def isCyclic (g : Graph) : Nat → String → DfsState → Option (Bool × DfsState)
  | 0, _, _ => none
  | fuel + 1, v, s =>
    match neighLoopF (isCyclic g fuel) (adjGet g v) ⟨v :: s.visited, v :: s.recStack⟩ with
    | none => none
    | some (true, s2) => some (true, s2)
    | some (false, s2) => some (false, ⟨s2.visited, s2.recStack.erase v⟩)

/-- The top-level loop `for node_id in graph: ...` with its early `break` on a
cycle report. -/
def checkDag (g : Graph) (fuel : Nat) : List String → DfsState → Option Bool
  | [], _ => some true
  | k :: rest, s =>
    if k ∈ s.visited then checkDag g fuel rest s
    else
      match isCyclic g fuel k s with
      | none => none
      | some (true, _) => some false
      | some (false, s2) => checkDag g fuel rest s2

/-- Every node id the DFS can ever touch: the keys of the map plus every
target stored in some neighbor list. -/
def nodeUniverse (g : Graph) : List String :=
  g.map Prod.fst ++ (g.map Prod.snd).flatten

/-- Fuel that provably suffices for the whole cycle detection. -/
def fuelFor (g : Graph) : Nat := (nodeUniverse g).length + 1

/-- The complete DAG check of `parse_pipeline`, starting from empty
`visited` / `rec_stack` sets. -/
def runDagCheck (g : Graph) : Option Bool :=
  checkDag g (fuelFor g) (g.map Prod.fst) ⟨[], []⟩

/-- The `data` record of a successful response. -/
structure AnalysisResult where
  num_nodes : Nat
  num_edges : Nat
  is_dag : Bool
deriving DecidableEq

/-- The standardized response envelope of `build_response` (the wall-clock
`response_time_ms` field is not modelled). -/
structure Response where
  success : Bool
  message : String
  data : Option AnalysisResult
deriving DecidableEq

/-- The `is_dag` field of the response's data, when present. -/
def Response.isDag (r : Response) : Option Bool :=
  r.data.map AnalysisResult.is_dag

/-- The endpoint handler `parse_pipeline`: build the adjacency map (a lookup
failure is caught by the `except` branch and turned into a failure envelope),
run the DAG check, and wrap the result. -/
def parse_pipeline (nodes : List Node) (edges : List Edge) : Response :=
  match buildEdges (initGraph nodes) edges with
  | .error k =>
    ⟨false, "Error while parsing pipeline: \x27" ++ k ++ "\x27", none⟩
  | .ok g =>
    match runDagCheck g with
    | none =>
      ⟨false, "Error while parsing pipeline: maximum recursion depth exceeded", none⟩
    | some b =>
      ⟨true, "Pipeline parsed successfully.", some ⟨nodes.length, edges.length, b⟩⟩

/-- One step of the directed graph stored in an adjacency map. -/
def edgeRel (g : Graph) (a b : String) : Prop := b ∈ adjGet g a

/-- One step of the directed graph formed by a raw edge list. -/
def edgeStep (edges : List Edge) (a b : String) : Prop :=
  ∃ e ∈ edges, e.source = a ∧ e.target = b

/-- Node descriptors with later duplicate declarations (same id) removed,
accumulator of already seen ids. -/
def dedupNodesAux (seen : List String) : List Node → List Node
  | [] => []
  | n :: rest =>
    if n.id ∈ seen then dedupNodesAux seen rest
    else n :: dedupNodesAux (n.id :: seen) rest

/-- Node descriptors with later duplicate declarations removed. -/
def dedupNodes (nodes : List Node) : List Node := dedupNodesAux [] nodes

/-- The six fixed development default origins of `get_cors_origins`. -/
def default_origins : List String :=
  [ "http://localhost:3000",
    "http://localhost:3001",
    "http://localhost:8080",
    "http://localhost:8081",
    "http://127.0.0.1:3000",
    "http://127.0.0.1:8080" ]

/-- `get_cors_origins`, with the environment lookup `os.getenv("CORS_ORIGINS", "")`
modelled by an `Option String` argument; Python string truthiness is
non-emptiness. -/
def get_cors_origins (env : Option String) : List String :=
  let cors_origins := env.getD ""
  if cors_origins ≠ "" then
    ((cors_origins.splitOn ",").map (fun origin => origin.trim)) ++ default_origins
  else
    default_origins

/-! ### Deduplication lemmas -/

theorem mem_firstDedupAux (l : List String) :
    ∀ (seen : List String) (x : String),
      x ∈ firstDedupAux seen l ↔ x ∈ l ∧ x ∉ seen := by
  induction l with
  | nil => intro seen x; simp [firstDedupAux]
  | cons k rest ih =>
    intro seen x
    by_cases hk : k ∈ seen
    · simp only [firstDedupAux, if_pos hk, ih, List.mem_cons]
      constructor
      · rintro ⟨hx, hs⟩; exact ⟨Or.inr hx, hs⟩
      · rintro ⟨hx | hx, hs⟩
        · exact absurd (hx ▸ hk) hs
        · exact ⟨hx, hs⟩
    · simp only [firstDedupAux, if_neg hk, List.mem_cons, ih]
      constructor
      · rintro (rfl | ⟨hx, hs⟩)
        · exact ⟨Or.inl rfl, hk⟩
        · exact ⟨Or.inr hx, fun hm => hs (Or.inr hm)⟩
      · rintro ⟨rfl | hx, hs⟩
        · exact Or.inl rfl
        · rcases eq_or_ne x k with rfl | hne
          · exact Or.inl rfl
          · exact Or.inr ⟨hx, fun hm => hm.elim hne hs⟩

theorem nodup_firstDedupAux (l : List String) :
    ∀ seen : List String, (firstDedupAux seen l).Nodup := by
  induction l with
  | nil => intro seen; simp [firstDedupAux]
  | cons k rest ih =>
    intro seen
    by_cases hk : k ∈ seen
    · simpa [firstDedupAux, if_pos hk] using ih seen
    · simp only [firstDedupAux, if_neg hk, List.nodup_cons]
      refine ⟨fun hm => ?_, ih (k :: seen)⟩
      exact ((mem_firstDedupAux rest (k :: seen) k).mp hm).2 (List.mem_cons_self k seen)

theorem firstDedupAux_eq_self (l : List String) :
    ∀ seen : List String, l.Nodup → (∀ x ∈ l, x ∉ seen) →
      firstDedupAux seen l = l := by
  induction l with
  | nil => intro seen _ _; rfl
  | cons k rest ih =>
    intro seen hnd hdis
    have hk : k ∉ seen := hdis k (List.mem_cons_self k rest)
    simp only [firstDedupAux, if_neg hk]
    have hrest : ∀ x ∈ rest, x ∉ k :: seen := by
      intro x hx
      intro hm
      rcases List.mem_cons.mp hm with rfl | h2
      · exact (List.nodup_cons.mp hnd).1 hx
      · exact hdis x (List.mem_cons_of_mem _ hx) h2
    rw [ih (k :: seen) (List.nodup_cons.mp hnd).2 hrest]

theorem mem_firstDedup (l : List String) (x : String) :
    x ∈ firstDedup l ↔ x ∈ l := by
  simp [firstDedup, mem_firstDedupAux]

theorem nodup_firstDedup (l : List String) : (firstDedup l).Nodup :=
  nodup_firstDedupAux l []

theorem firstDedup_idem (l : List String) :
    firstDedup (firstDedup l) = firstDedup l :=
  firstDedupAux_eq_self (firstDedup l) [] (nodup_firstDedup l) (by simp)

theorem map_dedupNodesAux (ns : List Node) :
    ∀ seen : List String,
      (dedupNodesAux seen ns).map Node.id = firstDedupAux seen (ns.map Node.id) := by
  induction ns with
  | nil => intro seen; rfl
  | cons n rest ih =>
    intro seen
    by_cases h : n.id ∈ seen
    · simp only [dedupNodesAux, List.map_cons, firstDedupAux, if_pos h, ih]
    · simp only [dedupNodesAux, List.map_cons, firstDedupAux, if_neg h, List.map_cons, ih]

/-! ### Adjacency-map construction lemmas -/

theorem initGraph_keys (nodes : List Node) :
    (initGraph nodes).map Prod.fst = firstDedup (nodes.map Node.id) := by
  unfold initGraph
  rw [List.map_map]
  have h : (Prod.fst ∘ fun k : String => (k, ([] : List String))) = id := rfl
  rw [h, List.map_id]

theorem nodup_initGraph_keys (nodes : List Node) :
    ((initGraph nodes).map Prod.fst).Nodup := by
  rw [initGraph_keys]; exact nodup_firstDedup _

theorem mem_initGraph_keys (nodes : List Node) (x : String) :
    x ∈ (initGraph nodes).map Prod.fst ↔ x ∈ nodes.map Node.id := by
  rw [initGraph_keys, mem_firstDedup]

theorem initGraph_dedupNodes (nodes : List Node) :
    initGraph (dedupNodes nodes) = initGraph nodes := by
  unfold initGraph
  rw [show (dedupNodes nodes).map Node.id = firstDedup (nodes.map Node.id) from
        map_dedupNodesAux nodes [], firstDedup_idem]

theorem adjGet_map_empty (l : List String) (x : String) :
    adjGet (l.map fun k => (k, ([] : List String))) x = [] := by
  induction l with
  | nil => rfl
  | cons k rest ih =>
    by_cases h : k = x
    · simp [adjGet, List.find?, h]
    · simpa [adjGet, List.find?, h] using ih

theorem adjGet_initGraph (nodes : List Node) (x : String) :
    adjGet (initGraph nodes) x = [] :=
  adjGet_map_empty _ x

theorem addEdge_keys {g g2 : Graph} {e : Edge} (h : addEdge g e = .ok g2) :
    g2.map Prod.fst = g.map Prod.fst := by
  unfold addEdge at h
  split at h
  · cases h
    rw [List.map_map]
    refine List.map_congr_left fun p _ => ?_
    by_cases hp : p.1 = e.source <;> simp [hp, Function.comp]
  · cases h

theorem addEdge_error_iff {g : Graph} {e : Edge} :
    (∃ k, addEdge g e = .error k) ↔ e.source ∉ g.map Prod.fst := by
  unfold addEdge
  by_cases hmem : e.source ∈ g.map Prod.fst
  · rw [if_pos hmem]
    constructor
    · rintro ⟨k, hk⟩; cases hk
    · intro hn; exact absurd hmem hn
  · rw [if_neg hmem]
    exact ⟨fun _ => hmem, fun _ => ⟨e.source, rfl⟩⟩

theorem addEdge_ok_of_mem {g : Graph} {e : Edge} (h : e.source ∈ g.map Prod.fst) :
    addEdge g e =
      .ok (g.map (fun p => if p.1 = e.source then (p.1, p.2 ++ [e.target]) else p)) := by
  unfold addEdge
  rw [if_pos h]

theorem addEdge_adjGet {g g2 : Graph} {e : Edge} (h : addEdge g e = .ok g2) (x : String) :
    adjGet g2 x = if x = e.source then adjGet g x ++ [e.target] else adjGet g x := by
  have hmem : e.source ∈ g.map Prod.fst := by
    by_contra hn
    rcases addEdge_error_iff.mpr hn with ⟨k, hk⟩
    rw [hk] at h
    cases h
  rw [addEdge_ok_of_mem hmem] at h
  cases h
  unfold adjGet
  rw [List.find?_map]
  have hpred : ((fun p : String × List String => decide (p.1 = x)) ∘
      fun p : String × List String => if p.1 = e.source then (p.1, p.2 ++ [e.target]) else p)
      = fun p : String × List String => decide (p.1 = x) := by
    funext p
    by_cases hp : p.1 = e.source <;> simp [hp, Function.comp]
  rw [hpred]
  cases hfind : g.find? (fun p => decide (p.1 = x)) with
  | none =>
    by_cases hx : x = e.source
    · exfalso
      subst hx
      rcases List.mem_map.mp hmem with ⟨p, hp, hps⟩
      have := List.find?_eq_none.mp hfind p hp
      simp [hps] at this
    · simp [hx]
  | some p =>
    have hp1 : p.1 = x := by
      have := List.find?_some hfind
      simpa using this
    by_cases hx : x = e.source
    · simp [Option.map, hp1, hx]
    · have : ¬ p.1 = e.source := by rw [hp1]; exact hx
      simp [Option.map, this, hx]

theorem buildEdges_keys {g g2 : Graph} {es : List Edge}
    (h : buildEdges g es = .ok g2) : g2.map Prod.fst = g.map Prod.fst := by
  induction es generalizing g with
  | nil => cases h; rfl
  | cons e rest ih =>
    unfold buildEdges at h
    cases hadd : addEdge g e with
    | error k => rw [hadd] at h; cases h
    | ok g1 =>
      rw [hadd] at h
      exact (ih h).trans (addEdge_keys hadd)

theorem buildEdges_ok_iff (g : Graph) (es : List Edge) :
    (∃ g2, buildEdges g es = .ok g2) ↔ ∀ e ∈ es, e.source ∈ g.map Prod.fst := by
  induction es generalizing g with
  | nil => simp [buildEdges]
  | cons e rest ih =>
    constructor
    · rintro ⟨g2, h⟩
      unfold buildEdges at h
      cases hadd : addEdge g e with
      | error k => rw [hadd] at h; cases h
      | ok g1 =>
        rw [hadd] at h
        intro e2 he2
        rcases List.mem_cons.mp he2 with rfl | hm
        · by_contra hn
          rcases addEdge_error_iff.mpr hn with ⟨k, hk⟩
          rw [hk] at hadd
          cases hadd
        · have := (ih g1).mp ⟨g2, h⟩ e2 hm
          rwa [addEdge_keys hadd] at this
    · intro hall
      have hmem : e.source ∈ g.map Prod.fst := hall e (List.mem_cons_self e rest)
      have hadd := addEdge_ok_of_mem hmem
      rcases (ih _).mpr (fun e2 he2 => by
        rw [addEdge_keys hadd]
        exact hall e2 (List.mem_cons_of_mem _ he2)) with ⟨g2, h2⟩
      exact ⟨g2, by unfold buildEdges; rw [hadd]; exact h2⟩

theorem buildEdges_adjGet {es : List Edge} :
    ∀ {g g2 : Graph}, buildEdges g es = .ok g2 → ∀ x,
      adjGet g2 x = adjGet g x ++ (es.filter fun e => decide (e.source = x)).map Edge.target := by
  induction es with
  | nil => intro g g2 h x; cases h; simp
  | cons e rest ih =>
    intro g g2 h x
    unfold buildEdges at h
    cases hadd : addEdge g e with
    | error k => rw [hadd] at h; cases h
    | ok g1 =>
      rw [hadd] at h
      rw [ih h x, addEdge_adjGet hadd x]
      by_cases hx : e.source = x
      · simp [hx, List.filter]
      · have : ¬ x = e.source := fun hh => hx hh.symm
        simp [this, hx, List.filter]

theorem adjGet_buildEdges_initGraph {nodes : List Node} {edges : List Edge} {g : Graph}
    (h : buildEdges (initGraph nodes) edges = .ok g) (x : String) :
    adjGet g x = (edges.filter fun e => decide (e.source = x)).map Edge.target := by
  rw [buildEdges_adjGet h x, adjGet_initGraph]
  rfl

theorem edgeRel_buildEdges {nodes : List Node} {edges : List Edge} {g : Graph}
    (h : buildEdges (initGraph nodes) edges = .ok g) (a b : String) :
    edgeRel g a b ↔ edgeStep edges a b := by
  unfold edgeRel edgeStep
  rw [adjGet_buildEdges_initGraph h a]
  constructor
  · intro hm
    rcases List.mem_map.mp hm with ⟨e, he, het⟩
    have := List.mem_filter.mp he
    exact ⟨e, this.1, by simpa using this.2, het⟩
  · rintro ⟨e, he, hs, ht⟩
    exact List.mem_map.mpr ⟨e, List.mem_filter.mpr ⟨he, by simpa using hs⟩, ht⟩

theorem adjGet_mem_keys {g : Graph} {x y : String} (h : y ∈ adjGet g x) :
    x ∈ g.map Prod.fst := by
  unfold adjGet at h
  cases hfind : g.find? (fun p => decide (p.1 = x)) with
  | none => rw [hfind] at h; cases h
  | some p =>
    have hp1 : p.1 = x := by
      have := List.find?_some hfind
      simpa using this
    exact List.mem_map.mpr ⟨p, List.mem_of_find?_eq_some hfind, hp1⟩

theorem adjGet_subset_universe {g : Graph} {x y : String} (h : y ∈ adjGet g x) :
    y ∈ nodeUniverse g := by
  unfold adjGet at h
  cases hfind : g.find? (fun p => decide (p.1 = x)) with
  | none => rw [hfind] at h; cases h
  | some p =>
    rw [hfind] at h
    refine List.mem_append.mpr (Or.inr ?_)
    exact List.mem_flatten.mpr ⟨p.2, List.mem_map.mpr ⟨p, List.mem_of_find?_eq_some hfind, rfl⟩, h⟩

theorem keys_subset_universe {g : Graph} {x : String} (h : x ∈ g.map Prod.fst) :
    x ∈ nodeUniverse g :=
  List.mem_append.mpr (Or.inl h)

/-! ### Equation lemmas for the fueled DFS -/

theorem neighLoopF_nil (rec : String → DfsState → Option (Bool × DfsState)) (s : DfsState) :
    neighLoopF rec [] s = some (false, s) := rfl

theorem neighLoopF_cons_visited_stack (rec : String → DfsState → Option (Bool × DfsState))
    {n : String} {s : DfsState} (rest : List String)
    (hv : n ∈ s.visited) (hr : n ∈ s.recStack) :
    neighLoopF rec (n :: rest) s = some (true, s) := by
  simp [neighLoopF, hv, hr]

theorem neighLoopF_cons_visited_notstack (rec : String → DfsState → Option (Bool × DfsState))
    {n : String} {s : DfsState} (rest : List String)
    (hv : n ∈ s.visited) (hr : n ∉ s.recStack) :
    neighLoopF rec (n :: rest) s = neighLoopF rec rest s := by
  simp [neighLoopF, hv, hr]

theorem neighLoopF_cons_new_none (rec : String → DfsState → Option (Bool × DfsState))
    {n : String} {s : DfsState} (rest : List String)
    (hv : n ∉ s.visited) (h : rec n s = none) :
    neighLoopF rec (n :: rest) s = none := by
  simp [neighLoopF, hv, h]

theorem neighLoopF_cons_new_true (rec : String → DfsState → Option (Bool × DfsState))
    {n : String} {s s2 : DfsState} (rest : List String)
    (hv : n ∉ s.visited) (h : rec n s = some (true, s2)) :
    neighLoopF rec (n :: rest) s = some (true, s2) := by
  simp [neighLoopF, hv, h]

theorem neighLoopF_cons_new_false (rec : String → DfsState → Option (Bool × DfsState))
    {n : String} {s s2 : DfsState} (rest : List String)
    (hv : n ∉ s.visited) (h : rec n s = some (false, s2)) :
    neighLoopF rec (n :: rest) s = neighLoopF rec rest s2 := by
  simp [neighLoopF, hv, h]

theorem isCyclic_zero (g : Graph) (v : String) (s : DfsState) :
    isCyclic g 0 v s = none := rfl

theorem isCyclic_succ_none {g : Graph} {fuel : Nat} {v : String} {s : DfsState}
    (h : neighLoopF (isCyclic g fuel) (adjGet g v) ⟨v :: s.visited, v :: s.recStack⟩ = none) :
    isCyclic g (fuel + 1) v s = none := by
  simp [isCyclic, h]

theorem isCyclic_succ_true {g : Graph} {fuel : Nat} {v : String} {s s2 : DfsState}
    (h : neighLoopF (isCyclic g fuel) (adjGet g v) ⟨v :: s.visited, v :: s.recStack⟩ =
      some (true, s2)) :
    isCyclic g (fuel + 1) v s = some (true, s2) := by
  simp [isCyclic, h]

theorem isCyclic_succ_false {g : Graph} {fuel : Nat} {v : String} {s s2 : DfsState}
    (h : neighLoopF (isCyclic g fuel) (adjGet g v) ⟨v :: s.visited, v :: s.recStack⟩ =
      some (false, s2)) :
    isCyclic g (fuel + 1) v s = some (false, ⟨s2.visited, s2.recStack.erase v⟩) := by
  simp [isCyclic, h]

theorem checkDag_nil (g : Graph) (fuel : Nat) (s : DfsState) :
    checkDag g fuel [] s = some true := rfl

theorem checkDag_cons_visited {g : Graph} {fuel : Nat} {k : String} {s : DfsState}
    (rest : List String) (hv : k ∈ s.visited) :
    checkDag g fuel (k :: rest) s = checkDag g fuel rest s := by
  simp [checkDag, hv]

theorem checkDag_cons_new_none {g : Graph} {fuel : Nat} {k : String} {s : DfsState}
    (rest : List String) (hv : k ∉ s.visited) (h : isCyclic g fuel k s = none) :
    checkDag g fuel (k :: rest) s = none := by
  simp [checkDag, hv, h]

theorem checkDag_cons_new_true {g : Graph} {fuel : Nat} {k : String} {s s2 : DfsState}
    (rest : List String) (hv : k ∉ s.visited) (h : isCyclic g fuel k s = some (true, s2)) :
    checkDag g fuel (k :: rest) s = some false := by
  simp [checkDag, hv, h]

theorem checkDag_cons_new_false {g : Graph} {fuel : Nat} {k : String} {s s2 : DfsState}
    (rest : List String) (hv : k ∉ s.visited) (h : isCyclic g fuel k s = some (false, s2)) :
    checkDag g fuel (k :: rest) s = checkDag g fuel rest s2 := by
  simp [checkDag, hv, h]

/-! ### Monotonicity of the DFS state -/

theorem neighLoopF_mono (rec : String → DfsState → Option (Bool × DfsState))
    (hrec : ∀ n s b s2, rec n s = some (b, s2) →
      s.visited ⊆ s2.visited ∧ (b = false → s2.recStack = s.recStack)) :
    ∀ (l : List String) (s : DfsState) (b : Bool) (s2 : DfsState),
      neighLoopF rec l s = some (b, s2) →
      s.visited ⊆ s2.visited ∧ (b = false → s2.recStack = s.recStack) := by
  intro l
  induction l with
  | nil =>
    intro s b s2 h
    rw [neighLoopF_nil] at h
    simp only [Option.some.injEq, Prod.mk.injEq] at h
    obtain ⟨rfl, rfl⟩ := h
    exact ⟨List.Subset.refl _, fun _ => rfl⟩
  | cons n rest ih =>
    intro s b s2 h
    by_cases hv : n ∈ s.visited
    · by_cases hr : n ∈ s.recStack
      · rw [neighLoopF_cons_visited_stack rec rest hv hr] at h
        simp only [Option.some.injEq, Prod.mk.injEq] at h
        obtain ⟨rfl, rfl⟩ := h
        exact ⟨List.Subset.refl _, fun _ => rfl⟩
      · rw [neighLoopF_cons_visited_notstack rec rest hv hr] at h
        exact ih s b s2 h
    · cases hrn : rec n s with
      | none =>
        rw [neighLoopF_cons_new_none rec rest hv hrn] at h
        cases h
      | some p =>
        obtain ⟨b1, s1⟩ := p
        cases b1 with
        | true =>
          rw [neighLoopF_cons_new_true rec rest hv hrn] at h
          simp only [Option.some.injEq, Prod.mk.injEq] at h
          obtain ⟨rfl, rfl⟩ := h
          exact ⟨(hrec n s true s1 hrn).1, fun hff => Bool.noConfusion hff⟩
        | false =>
          rw [neighLoopF_cons_new_false rec rest hv hrn] at h
          have h1 := hrec n s false s1 hrn
          have h2 := ih s1 b s2 h
          exact ⟨fun x hx => h2.1 (h1.1 hx),
            fun hb => (h2.2 hb).trans (h1.2 rfl)⟩

theorem isCyclic_mono (g : Graph) :
    ∀ (fuel : Nat) (v : String) (s : DfsState) (b : Bool) (s2 : DfsState),
      isCyclic g fuel v s = some (b, s2) →
      s.visited ⊆ s2.visited ∧ (b = false → s2.recStack = s.recStack) := by
  intro fuel
  induction fuel with
  | zero => intro v s b s2 h; simp [isCyclic] at h
  | succ fuel ih =>
    intro v s b s2 h
    cases hl : neighLoopF (isCyclic g fuel) (adjGet g v) ⟨v :: s.visited, v :: s.recStack⟩ with
    | none => rw [isCyclic_succ_none hl] at h; cases h
    | some p =>
      obtain ⟨b1, s1⟩ := p
      have hmono := neighLoopF_mono (isCyclic g fuel) ih _ _ _ _ hl
      cases b1 with
      | true =>
        rw [isCyclic_succ_true hl] at h
        simp only [Option.some.injEq, Prod.mk.injEq] at h
        obtain ⟨rfl, rfl⟩ := h
        exact ⟨fun x hx => hmono.1 (List.mem_cons_of_mem _ hx),
          fun hff => Bool.noConfusion hff⟩
      | false =>
        rw [isCyclic_succ_false hl] at h
        simp only [Option.some.injEq, Prod.mk.injEq] at h
        obtain ⟨rfl, rfl⟩ := h
        refine ⟨fun x hx => hmono.1 (List.mem_cons_of_mem _ hx), fun _ => ?_⟩
        rw [hmono.2 rfl]
        exact List.erase_cons_head v s.recStack

/-! ### Soundness: a reported cycle is a real cycle -/

theorem chain_reaches {g : Graph} :
    ∀ (stk : List String) (v n : String),
      List.Chain' (fun a b => edgeRel g b a) (v :: stk) → n ∈ stk →
      Relation.TransGen (edgeRel g) n v := by
  intro stk
  induction stk with
  | nil => intro v n _ hn; cases hn
  | cons b rest ih =>
    intro v n hchain hn
    have h1 : edgeRel g b v := (List.chain'_cons.mp hchain).1
    have h2 : List.Chain' (fun a c => edgeRel g c a) (b :: rest) :=
      (List.chain'_cons.mp hchain).2
    rcases List.mem_cons.mp hn with rfl | hn2
    · exact Relation.TransGen.single h1
    · exact Relation.TransGen.tail (ih b n h2 hn2) h1

theorem cycle_from_stack {g : Graph} {stk : List String} {v n : String}
    (hchain : List.Chain' (fun a b => edgeRel g b a) (v :: stk))
    (hn : n ∈ v :: stk) (hedge : edgeRel g v n) :
    Relation.TransGen (edgeRel g) n n := by
  rcases List.mem_cons.mp hn with rfl | hn2
  · exact Relation.TransGen.single hedge
  · exact Relation.TransGen.tail (chain_reaches stk v n hchain hn2) hedge

theorem neighLoopF_sound (g : Graph) (rec : String → DfsState → Option (Bool × DfsState))
    (hrec_true : ∀ n s s2, List.Chain' (fun a b => edgeRel g b a) (n :: s.recStack) →
      rec n s = some (true, s2) → ∃ x, Relation.TransGen (edgeRel g) x x)
    (hrec_false : ∀ n s s2, rec n s = some (false, s2) → s2.recStack = s.recStack) :
    ∀ (l : List String) (s s2 : DfsState) (v : String) (stk : List String),
      s.recStack = v :: stk →
      List.Chain' (fun a b => edgeRel g b a) (v :: stk) →
      (∀ n ∈ l, edgeRel g v n) →
      neighLoopF rec l s = some (true, s2) →
      ∃ x, Relation.TransGen (edgeRel g) x x := by
  intro l
  induction l with
  | nil =>
    intro s s2 v stk _ _ _ h
    rw [neighLoopF_nil] at h
    simp at h
  | cons n rest ih =>
    intro s s2 v stk hstk hchain hnb h
    by_cases hv : n ∈ s.visited
    · by_cases hr : n ∈ s.recStack
      · refine ⟨n, cycle_from_stack hchain ?_ (hnb n (List.mem_cons_self n rest))⟩
        rw [hstk] at hr
        exact hr
      · rw [neighLoopF_cons_visited_notstack rec rest hv hr] at h
        exact ih s s2 v stk hstk hchain (fun m hm => hnb m (List.mem_cons_of_mem _ hm)) h
    · cases hrn : rec n s with
      | none =>
        rw [neighLoopF_cons_new_none rec rest hv hrn] at h
        cases h
      | some p =>
        obtain ⟨b1, s1⟩ := p
        cases b1 with
        | true =>
          refine hrec_true n s s1 ?_ hrn
          rw [hstk]
          exact List.chain'_cons.mpr ⟨hnb n (List.mem_cons_self n rest), hchain⟩
        | false =>
          rw [neighLoopF_cons_new_false rec rest hv hrn] at h
          refine ih s1 s2 v stk ?_ hchain (fun m hm => hnb m (List.mem_cons_of_mem _ hm)) h
          rw [hrec_false n s s1 hrn, hstk]

theorem isCyclic_sound (g : Graph) :
    ∀ (fuel : Nat) (v : String) (s s2 : DfsState),
      List.Chain' (fun a b => edgeRel g b a) (v :: s.recStack) →
      isCyclic g fuel v s = some (true, s2) →
      ∃ x, Relation.TransGen (edgeRel g) x x := by
  intro fuel
  induction fuel with
  | zero => intro v s s2 _ h; simp [isCyclic] at h
  | succ fuel ih =>
    intro v s s2 hchain h
    cases hl : neighLoopF (isCyclic g fuel) (adjGet g v) ⟨v :: s.visited, v :: s.recStack⟩ with
    | none => rw [isCyclic_succ_none hl] at h; cases h
    | some p =>
      obtain ⟨b1, s1⟩ := p
      cases b1 with
      | true =>
        refine neighLoopF_sound g (isCyclic g fuel)
          (fun n s0 s3 hch h0 => ih n s0 s3 hch h0)
          (fun n s0 s3 h0 => (isCyclic_mono g fuel n s0 false s3 h0).2 rfl)
          (adjGet g v) ⟨v :: s.visited, v :: s.recStack⟩ s1 v s.recStack rfl hchain
          (fun n hn => hn) hl
      | false =>
        rw [isCyclic_succ_false hl] at h
        simp at h

/-! ### Completeness: cycle-free reports really exclude cycles -/

/-- A node is done when it is visited and no longer on the recursion stack. -/
def Done (s : DfsState) (x : String) : Prop := x ∈ s.visited ∧ x ∉ s.recStack

/-- The invariant the DFS maintains along its cycle-free paths: the done region
is closed under edges, no done node lies on a cycle, and the recursion stack
only holds visited nodes. -/
def DfsInv (g : Graph) (s : DfsState) : Prop :=
  (∀ x, Done s x → ∀ y, edgeRel g x y → Done s y) ∧
  (∀ x, Done s x → ¬ Relation.TransGen (edgeRel g) x x) ∧
  (∀ x ∈ s.recStack, x ∈ s.visited)

theorem closed_transGen {g : Graph} (S : String → Prop)
    (hS : ∀ x, S x → ∀ y, edgeRel g x y → S y) {c d : String}
    (h : Relation.TransGen (edgeRel g) c d) (hc : S c) : S d := by
  induction h with
  | single h1 => exact hS _ hc _ h1
  | tail _ h2 ih => exact hS _ ih _ h2

theorem transGen_first {α : Type} {r : α → α → Prop} {a b : α}
    (h : Relation.TransGen r a b) :
    ∃ c, r a c ∧ (c = b ∨ Relation.TransGen r c b) := by
  induction h with
  | single h1 => exact ⟨_, h1, Or.inl rfl⟩
  | tail _ h2 ih =>
    obtain ⟨c, hc, hrest⟩ := ih
    refine ⟨c, hc, Or.inr ?_⟩
    rcases hrest with rfl | h3
    · exact Relation.TransGen.single h2
    · exact Relation.TransGen.tail h3 h2

theorem done_push {s : DfsState} {v x : String} (hv : v ∉ s.visited) :
    Done ⟨v :: s.visited, v :: s.recStack⟩ x ↔ Done s x := by
  unfold Done
  simp only [List.mem_cons]
  constructor
  · rintro ⟨hx1 | hx1, hx2⟩
    · exact (hx2 (Or.inl hx1)).elim
    · exact ⟨hx1, fun h2 => hx2 (Or.inr h2)⟩
  · rintro ⟨hx1, hx2⟩
    refine ⟨Or.inr hx1, fun h2 => ?_⟩
    rcases h2 with rfl | h3
    · exact hv hx1
    · exact hx2 h3

theorem neighLoopF_complete (g : Graph) (rec : String → DfsState → Option (Bool × DfsState))
    (hrec : ∀ n s s2, DfsInv g s → n ∉ s.visited → rec n s = some (false, s2) →
      DfsInv g s2 ∧ s2.recStack = s.recStack ∧ s.visited ⊆ s2.visited ∧ Done s2 n) :
    ∀ (l : List String) (s s2 : DfsState), DfsInv g s →
      neighLoopF rec l s = some (false, s2) →
      DfsInv g s2 ∧ s2.recStack = s.recStack ∧ s.visited ⊆ s2.visited ∧
        ∀ n ∈ l, Done s2 n := by
  intro l
  induction l with
  | nil =>
    intro s s2 hinv h
    rw [neighLoopF_nil] at h
    simp only [Option.some.injEq, Prod.mk.injEq] at h
    obtain ⟨-, rfl⟩ := h
    exact ⟨hinv, rfl, List.Subset.refl _, by simp⟩
  | cons n rest ih =>
    intro s s2 hinv h
    by_cases hv : n ∈ s.visited
    · by_cases hr : n ∈ s.recStack
      · rw [neighLoopF_cons_visited_stack rec rest hv hr] at h
        simp at h
      · rw [neighLoopF_cons_visited_notstack rec rest hv hr] at h
        obtain ⟨hinv2, hstk, hvis, hall⟩ := ih s s2 hinv h
        refine ⟨hinv2, hstk, hvis, fun m hm => ?_⟩
        rcases List.mem_cons.mp hm with rfl | hm2
        · exact ⟨hvis hv, by rw [hstk]; exact hr⟩
        · exact hall m hm2
    · cases hrn : rec n s with
      | none => rw [neighLoopF_cons_new_none rec rest hv hrn] at h; cases h
      | some p =>
        obtain ⟨b1, s1⟩ := p
        cases b1 with
        | true =>
          rw [neighLoopF_cons_new_true rec rest hv hrn] at h
          simp at h
        | false =>
          rw [neighLoopF_cons_new_false rec rest hv hrn] at h
          obtain ⟨hinv1, hstk1, hvis1, hdone1⟩ := hrec n s s1 hinv hv hrn
          obtain ⟨hinv2, hstk2, hvis2, hall2⟩ := ih s1 s2 hinv1 h
          refine ⟨hinv2, hstk2.trans hstk1, fun x hx => hvis2 (hvis1 hx), fun m hm => ?_⟩
          rcases List.mem_cons.mp hm with rfl | hm2
          · exact ⟨hvis2 hdone1.1, by rw [hstk2]; exact hdone1.2⟩
          · exact hall2 m hm2

theorem isCyclic_complete (g : Graph) :
    ∀ (fuel : Nat) (v : String) (s s2 : DfsState),
      DfsInv g s → v ∉ s.visited →
      isCyclic g fuel v s = some (false, s2) →
      DfsInv g s2 ∧ s2.recStack = s.recStack ∧ s.visited ⊆ s2.visited ∧ Done s2 v := by
  intro fuel
  induction fuel with
  | zero => intro v s s2 _ _ h; simp [isCyclic] at h
  | succ fuel ih =>
    intro v s s2 hinv hv h
    cases hl : neighLoopF (isCyclic g fuel) (adjGet g v) ⟨v :: s.visited, v :: s.recStack⟩ with
    | none => rw [isCyclic_succ_none hl] at h; cases h
    | some p =>
      obtain ⟨b1, s1⟩ := p
      cases b1 with
      | true =>
        rw [isCyclic_succ_true hl] at h
        simp at h
      | false =>
        rw [isCyclic_succ_false hl] at h
        simp only [Option.some.injEq, Prod.mk.injEq] at h
        obtain ⟨-, rfl⟩ := h
        have hs1 : DfsInv g ⟨v :: s.visited, v :: s.recStack⟩ := by
          obtain ⟨hclosed, hnocyc, hsub⟩ := hinv
          refine ⟨?_, ?_, ?_⟩
          · intro x hx y hy
            exact (done_push hv).mpr (hclosed x ((done_push hv).mp hx) y hy)
          · intro x hx
            exact hnocyc x ((done_push hv).mp hx)
          · intro x hx
            rcases List.mem_cons.mp hx with rfl | h2
            · exact List.mem_cons_self _ _
            · exact List.mem_cons_of_mem _ (hsub x h2)
        obtain ⟨hinv1, hstk1, hvis1, hall1⟩ :=
          neighLoopF_complete g (isCyclic g fuel)
            (fun n s0 s3 h1 h2 h3 => ih n s0 s3 h1 h2 h3)
            (adjGet g v) ⟨v :: s.visited, v :: s.recStack⟩ s1 hs1 hl
        have hvmem : v ∈ s1.visited := hvis1 (List.mem_cons_self v s.visited)
        have hstk_erase : s1.recStack.erase v = s.recStack := by
          rw [hstk1]; exact List.erase_cons_head v s.recStack
        have hvnotstk : v ∉ s.recStack := fun hmem => hv (hinv.2.2 v hmem)
        have hdone_final :
            ∀ x, Done ⟨s1.visited, s1.recStack.erase v⟩ x ↔ (Done s1 x ∨ x = v) := by
          intro x
          unfold Done
          rw [hstk_erase, hstk1]
          simp only [List.mem_cons]
          constructor
          · rintro ⟨hx1, hx2⟩
            rcases eq_or_ne x v with rfl | hne
            · exact Or.inr rfl
            · exact Or.inl ⟨hx1, fun hc => hc.elim hne hx2⟩
          · rintro (⟨hx1, hx2⟩ | rfl)
            · exact ⟨hx1, fun hc => hx2 (Or.inr hc)⟩
            · exact ⟨hvmem, hvnotstk⟩
        obtain ⟨hclosed1, hnocyc1, hsub1⟩ := hinv1
        have hvnotdone1 : ¬ Done s1 v := fun hd =>
          hd.2 (by rw [hstk1]; exact List.mem_cons_self _ _)
        have hneighbors : ∀ y, edgeRel g v y → Done s1 y := fun y hy => hall1 y hy
        refine ⟨⟨?_, ?_, ?_⟩, hstk_erase, ?_, ?_⟩
        · intro x hx y hy
          rw [hdone_final] at hx ⊢
          rcases hx with hx1 | rfl
          · exact Or.inl (hclosed1 x hx1 y hy)
          · exact Or.inl (hneighbors y hy)
        · intro x hx hcyc
          rcases (hdone_final x).mp hx with hx1 | rfl
          · exact hnocyc1 x hx1 hcyc
          · obtain ⟨c, hvc, hrest⟩ := transGen_first hcyc
            have hcdone : Done s1 c := hneighbors c hvc
            rcases hrest with rfl | h3
            · exact hvnotdone1 hcdone
            · exact hvnotdone1 (closed_transGen (Done s1) hclosed1 h3 hcdone)
        · intro x hx
          exact hsub1 x (List.mem_of_mem_erase hx)
        · exact fun x hx => hvis1 (List.mem_cons_of_mem _ hx)
        · exact (hdone_final v).mpr (Or.inr rfl)

/-! ### Fuel adequacy: the chosen fuel never runs out -/

/-- Number of universe nodes not yet visited; the quantity the fuel bounds. -/
def dfsMeasure (g : Graph) (s : DfsState) : Nat :=
  ((nodeUniverse g).toFinset \ s.visited.toFinset).card

theorem dfsMeasure_push_lt {g : Graph} {s : DfsState} {v : String}
    (hvU : v ∈ nodeUniverse g) (hv : v ∉ s.visited) (stk : List String) :
    dfsMeasure g ⟨v :: s.visited, stk⟩ < dfsMeasure g s := by
  show ((nodeUniverse g).toFinset \ (v :: s.visited).toFinset).card <
    ((nodeUniverse g).toFinset \ s.visited.toFinset).card
  rw [List.toFinset_cons]
  have hsub : (nodeUniverse g).toFinset \ insert v s.visited.toFinset ⊆
      (nodeUniverse g).toFinset \ s.visited.toFinset :=
    Finset.sdiff_subset_sdiff (Finset.Subset.refl _) (Finset.subset_insert _ _)
  refine Finset.card_lt_card ((Finset.ssubset_iff_of_subset hsub).mpr ⟨v, ?_, ?_⟩)
  · exact Finset.mem_sdiff.mpr
      ⟨List.mem_toFinset.mpr hvU, fun hc => hv (List.mem_toFinset.mp hc)⟩
  · intro hc
    exact (Finset.mem_sdiff.mp hc).2 (Finset.mem_insert_self v _)

theorem dfsMeasure_mono {g : Graph} {s s2 : DfsState} (h : s.visited ⊆ s2.visited) :
    dfsMeasure g s2 ≤ dfsMeasure g s := by
  apply Finset.card_le_card
  apply Finset.sdiff_subset_sdiff (Finset.Subset.refl _)
  intro x hx
  exact List.mem_toFinset.mpr (h (List.mem_toFinset.mp hx))

theorem neighLoopF_isSome (g : Graph) (rec : String → DfsState → Option (Bool × DfsState))
    (fuel : Nat)
    (hrec_some : ∀ n s, n ∈ nodeUniverse g → n ∉ s.visited → dfsMeasure g s < fuel →
      (rec n s).isSome = true)
    (hrec_mono : ∀ n s b s2, rec n s = some (b, s2) →
      s.visited ⊆ s2.visited ∧ (b = false → s2.recStack = s.recStack)) :
    ∀ (l : List String) (s : DfsState),
      (∀ n ∈ l, n ∈ nodeUniverse g) → dfsMeasure g s < fuel →
      (neighLoopF rec l s).isSome = true := by
  intro l
  induction l with
  | nil => intro s _ _; rw [neighLoopF_nil]; rfl
  | cons n rest ih =>
    intro s hU hm
    by_cases hv : n ∈ s.visited
    · by_cases hr : n ∈ s.recStack
      · rw [neighLoopF_cons_visited_stack rec rest hv hr]; rfl
      · rw [neighLoopF_cons_visited_notstack rec rest hv hr]
        exact ih s (fun m hm2 => hU m (List.mem_cons_of_mem _ hm2)) hm
    · have hsome := hrec_some n s (hU n (List.mem_cons_self n rest)) hv hm
      obtain ⟨p, hp⟩ := Option.isSome_iff_exists.mp hsome
      obtain ⟨b1, s1⟩ := p
      cases b1 with
      | true => rw [neighLoopF_cons_new_true rec rest hv hp]; rfl
      | false =>
        rw [neighLoopF_cons_new_false rec rest hv hp]
        refine ih s1 (fun m hm2 => hU m (List.mem_cons_of_mem _ hm2)) ?_
        exact lt_of_le_of_lt (dfsMeasure_mono (hrec_mono n s false s1 hp).1) hm

theorem isCyclic_isSome (g : Graph) :
    ∀ (fuel : Nat) (v : String) (s : DfsState),
      v ∈ nodeUniverse g → v ∉ s.visited → dfsMeasure g s < fuel →
      (isCyclic g fuel v s).isSome = true := by
  intro fuel
  induction fuel with
  | zero => intro v s _ _ hm; exact absurd hm (Nat.not_lt_zero _)
  | succ fuel ih =>
    intro v s hU hv hm
    have hm1 : dfsMeasure g ⟨v :: s.visited, v :: s.recStack⟩ < fuel := by
      have hlt := dfsMeasure_push_lt hU hv (v :: s.recStack)
      omega
    have hloop := neighLoopF_isSome g (isCyclic g fuel) fuel
      (fun n s0 h1 h2 h3 => ih n s0 h1 h2 h3)
      (fun n s0 b s2 h0 => isCyclic_mono g fuel n s0 b s2 h0)
      (adjGet g v) ⟨v :: s.visited, v :: s.recStack⟩
      (fun n hn => adjGet_subset_universe hn) hm1
    obtain ⟨p, hp⟩ := Option.isSome_iff_exists.mp hloop
    obtain ⟨b1, s1⟩ := p
    cases b1 with
    | true => rw [isCyclic_succ_true hp]; rfl
    | false => rw [isCyclic_succ_false hp]; rfl

/-! ### The top-level scan -/

theorem checkDag_isSome (g : Graph) (fuel : Nat) :
    ∀ (ks : List String) (s : DfsState),
      (∀ k ∈ ks, k ∈ nodeUniverse g) → dfsMeasure g s < fuel →
      (checkDag g fuel ks s).isSome = true := by
  intro ks
  induction ks with
  | nil => intro s _ _; rw [checkDag_nil]; rfl
  | cons k rest ih =>
    intro s hU hm
    by_cases hv : k ∈ s.visited
    · rw [checkDag_cons_visited rest hv]
      exact ih s (fun m h2 => hU m (List.mem_cons_of_mem _ h2)) hm
    · have hsome := isCyclic_isSome g fuel k s (hU k (List.mem_cons_self k rest)) hv hm
      obtain ⟨p, hp⟩ := Option.isSome_iff_exists.mp hsome
      obtain ⟨b1, s1⟩ := p
      cases b1 with
      | true => rw [checkDag_cons_new_true rest hv hp]; rfl
      | false =>
        rw [checkDag_cons_new_false rest hv hp]
        refine ih s1 (fun m h2 => hU m (List.mem_cons_of_mem _ h2)) ?_
        exact lt_of_le_of_lt (dfsMeasure_mono (isCyclic_mono g fuel k s false s1 hp).1) hm

theorem checkDag_true_no_cycle (g : Graph) (fuel : Nat) :
    ∀ (ks : List String) (s : DfsState),
      DfsInv g s → s.recStack = [] →
      (∀ x, x ∈ g.map Prod.fst → x ∈ s.visited ∨ x ∈ ks) →
      checkDag g fuel ks s = some true →
      ¬ ∃ x, Relation.TransGen (edgeRel g) x x := by
  intro ks
  induction ks with
  | nil =>
    intro s hinv hstk hcov h
    rintro ⟨x, hx⟩
    obtain ⟨c, hc, -⟩ := transGen_first hx
    have hxkeys : x ∈ g.map Prod.fst := adjGet_mem_keys hc
    have hxvis : x ∈ s.visited := by
      rcases hcov x hxkeys with h1 | h1
      · exact h1
      · cases h1
    have hdone : Done s x := ⟨hxvis, by rw [hstk]; exact List.not_mem_nil x⟩
    exact hinv.2.1 x hdone hx
  | cons k rest ih =>
    intro s hinv hstk hcov h
    by_cases hv : k ∈ s.visited
    · rw [checkDag_cons_visited rest hv] at h
      refine ih s hinv hstk (fun x hx => ?_) h
      rcases hcov x hx with h1 | h1
      · exact Or.inl h1
      · rcases List.mem_cons.mp h1 with rfl | h2
        · exact Or.inl hv
        · exact Or.inr h2
    · cases hck : isCyclic g fuel k s with
      | none => rw [checkDag_cons_new_none rest hv hck] at h; cases h
      | some p =>
        obtain ⟨b1, s1⟩ := p
        cases b1 with
        | true => rw [checkDag_cons_new_true rest hv hck] at h; simp at h
        | false =>
          rw [checkDag_cons_new_false rest hv hck] at h
          obtain ⟨hinv1, hstk1, hvis1, hdone1⟩ := isCyclic_complete g fuel k s s1 hinv hv hck
          refine ih s1 hinv1 (hstk1.trans hstk) (fun x hx => ?_) h
          rcases hcov x hx with h1 | h1
          · exact Or.inl (hvis1 h1)
          · rcases List.mem_cons.mp h1 with rfl | h2
            · exact Or.inl hdone1.1
            · exact Or.inr h2

theorem checkDag_false_cycle (g : Graph) (fuel : Nat) :
    ∀ (ks : List String) (s : DfsState),
      s.recStack = [] →
      checkDag g fuel ks s = some false →
      ∃ x, Relation.TransGen (edgeRel g) x x := by
  intro ks
  induction ks with
  | nil => intro s _ h; rw [checkDag_nil] at h; simp at h
  | cons k rest ih =>
    intro s hstk h
    by_cases hv : k ∈ s.visited
    · rw [checkDag_cons_visited rest hv] at h
      exact ih s hstk h
    · cases hck : isCyclic g fuel k s with
      | none => rw [checkDag_cons_new_none rest hv hck] at h; cases h
      | some p =>
        obtain ⟨b1, s1⟩ := p
        cases b1 with
        | true =>
          refine isCyclic_sound g fuel k s s1 ?_ hck
          rw [hstk]
          exact List.chain'_singleton k
        | false =>
          rw [checkDag_cons_new_false rest hv hck] at h
          refine ih s1 ?_ h
          rw [(isCyclic_mono g fuel k s false s1 hck).2 rfl, hstk]

theorem dfsInv_init (g : Graph) : DfsInv g ⟨[], []⟩ :=
  ⟨fun x hx => absurd hx.1 (List.not_mem_nil x),
   fun x hx => absurd hx.1 (List.not_mem_nil x),
   fun x hx => absurd hx (List.not_mem_nil x)⟩

theorem runDagCheck_isSome (g : Graph) : (runDagCheck g).isSome = true := by
  unfold runDagCheck
  refine checkDag_isSome g (fuelFor g) (g.map Prod.fst) ⟨[], []⟩
    (fun k hk => keys_subset_universe hk) ?_
  have h1 : dfsMeasure g ⟨[], []⟩ ≤ (nodeUniverse g).length := by
    refine le_trans (Finset.card_le_card ?_) (List.toFinset_card_le _)
    intro x hx
    exact (Finset.mem_sdiff.mp hx).1
  have h2 : fuelFor g = (nodeUniverse g).length + 1 := rfl
  omega

theorem runDagCheck_spec (g : Graph) {b : Bool} (h : runDagCheck g = some b) :
    b = true ↔ ¬ ∃ x, Relation.TransGen (edgeRel g) x x := by
  unfold runDagCheck at h
  cases b with
  | true =>
    refine ⟨fun _ => ?_, fun _ => rfl⟩
    exact checkDag_true_no_cycle g (fuelFor g) (g.map Prod.fst) ⟨[], []⟩
      (dfsInv_init g) rfl (fun x hx => Or.inr hx) h
  | false =>
    refine ⟨fun hf => Bool.noConfusion hf, fun hnc => ?_⟩
    exact absurd (checkDag_false_cycle g (fuelFor g) (g.map Prod.fst) ⟨[], []⟩ rfl h) hnc

theorem runDagCheck_total (g : Graph) :
    ∃ b, runDagCheck g = some b ∧
      (b = true ↔ ¬ ∃ x, Relation.TransGen (edgeRel g) x x) := by
  obtain ⟨b, hb⟩ := Option.isSome_iff_exists.mp (runDagCheck_isSome g)
  exact ⟨b, hb, runDagCheck_spec g hb⟩

/-! ### The endpoint on well-formed input -/

theorem parse_wf_spec (nodes : List Node) (edges : List Edge)
    (hwf : ∀ e ∈ edges, e.source ∈ nodes.map Node.id) :
    ∃ b, parse_pipeline nodes edges =
        ⟨true, "Pipeline parsed successfully.", some ⟨nodes.length, edges.length, b⟩⟩ ∧
      (b = true ↔ ¬ ∃ v, Relation.TransGen (edgeStep edges) v v) := by
  have hkeys : ∀ e ∈ edges, e.source ∈ (initGraph nodes).map Prod.fst := by
    intro e he
    rw [mem_initGraph_keys]
    exact hwf e he
  obtain ⟨g, hg⟩ := (buildEdges_ok_iff (initGraph nodes) edges).mpr hkeys
  obtain ⟨b, hb, hiff⟩ := runDagCheck_total g
  refine ⟨b, ?_, ?_⟩
  · simp only [parse_pipeline, hg, hb]
  · have hrel : edgeRel g = edgeStep edges := by
      funext a c
      exact propext (edgeRel_buildEdges hg a c)
    rw [hrel] at hiff
    exact hiff

theorem parse_data_counts (nodes : List Node) (edges : List Edge) (r : AnalysisResult)
    (h : (parse_pipeline nodes edges).data = some r) :
    r.num_nodes = nodes.length ∧ r.num_edges = edges.length := by
  unfold parse_pipeline at h
  cases hb : buildEdges (initGraph nodes) edges with
  | error k => simp [hb] at h
  | ok g =>
    simp only [hb] at h
    cases hd : runDagCheck g with
    | none => simp [hd] at h
    | some b =>
      simp only [hd, Option.some.injEq] at h
      rw [← h]
      exact ⟨rfl, rfl⟩

theorem bool_eq_of_iff {a b : Bool} (h : (a = true) ↔ (b = true)) : a = b := by
  cases a <;> cases b <;> simp_all

theorem transGen_restrict {α : Type} {r r2 : α → α → Prop}
    (hP : ∀ a b, r a b → (∃ c, r b c) → r2 a b) :
    ∀ {x y : α}, Relation.TransGen r x y → (∃ c, r y c) →
      Relation.TransGen r2 x y := by
  intro x y h
  induction h with
  | single h1 => intro hy; exact Relation.TransGen.single (hP _ _ h1 hy)
  | tail _ h2 ih =>
    intro hy
    exact Relation.TransGen.tail (ih ⟨_, h2⟩) (hP _ _ h2 hy)

/-- Removing the edges whose target is undeclared does not change the
existence of a cycle, because every node on a cycle has an outgoing edge and
hence (on well-formed input) is itself a declared source. -/
theorem cycle_iff_filter_target (nodes : List Node) (edges : List Edge)
    (hwf : ∀ e ∈ edges, e.source ∈ nodes.map Node.id) :
    (∃ v, Relation.TransGen (edgeStep edges) v v) ↔
      (∃ v, Relation.TransGen
        (edgeStep (edges.filter (fun e => decide (e.target ∈ nodes.map Node.id)))) v v) := by
  constructor
  · rintro ⟨v, hv⟩
    have hstep : ∀ a b, edgeStep edges a b → (∃ c, edgeStep edges b c) →
        edgeStep (edges.filter (fun e => decide (e.target ∈ nodes.map Node.id))) a b := by
      rintro a b ⟨e, he, hs, ht⟩ ⟨c, e2, he2, hs2, ht2⟩
      refine ⟨e, List.mem_filter.mpr ⟨he, ?_⟩, hs, ht⟩
      rw [decide_eq_true_iff, ht, ← hs2]
      exact hwf e2 he2
    obtain ⟨c, hc, -⟩ := transGen_first hv
    exact ⟨v, transGen_restrict hstep hv ⟨c, hc⟩⟩
  · rintro ⟨v, hv⟩
    refine ⟨v, Relation.TransGen.mono ?_ hv⟩
    rintro a b ⟨e, he, hs, ht⟩
    exact ⟨e, List.mem_of_mem_filter he, hs, ht⟩

/-! ### Concrete fixtures used by the witnesses -/

def nodeA : Node := ⟨"A", "customInput", []⟩

def nodeB : Node := ⟨"B", "customInput", []⟩

def nodeC : Node := ⟨"C", "customInput", []⟩

def edgeAB : Edge := ⟨"A", "B"⟩

def edgeBC : Edge := ⟨"B", "C"⟩

def edgeCA : Edge := ⟨"C", "A"⟩

def edgeAA : Edge := ⟨"A", "A"⟩

def edgeAX : Edge := ⟨"A", "X"⟩

/-! ### The claims -/

/-- C1: for every input in which every edge's source id is among the declared
node ids, the returned `is_dag` field is true if and only if the directed
graph formed by the edge list contains no directed cycle. -/
theorem c1_is_dag_iff_acyclic (nodes : List Node) (edges : List Edge)
    (hwf : ∀ e ∈ edges, e.source ∈ nodes.map Node.id) :
    ∃ b, (parse_pipeline nodes edges).data = some ⟨nodes.length, edges.length, b⟩ ∧
      (b = true ↔ ¬ ∃ v, Relation.TransGen (edgeStep edges) v v) := by
  obtain ⟨b, hb, hiff⟩ := parse_wf_spec nodes edges hwf
  refine ⟨b, ?_, hiff⟩
  rw [hb]

theorem c1_witness :
    (∀ e ∈ [edgeAB, edgeBC, edgeCA], e.source ∈ [nodeA, nodeB, nodeC].map Node.id) ∧
    ∃ b, (parse_pipeline [nodeA, nodeB, nodeC] [edgeAB, edgeBC, edgeCA]).data =
        some ⟨3, 3, b⟩ ∧
      (b = true ↔ ¬ ∃ v, Relation.TransGen (edgeStep [edgeAB, edgeBC, edgeCA]) v v) :=
  ⟨by decide, c1_is_dag_iff_acyclic [nodeA, nodeB, nodeC] [edgeAB, edgeBC, edgeCA] (by decide)⟩

/-- C2: the endpoint returns a failure envelope (success = false) if and only
if some edge's source id is absent from the declared node ids; in every other
case a success result is returned. -/
theorem c2_failure_iff_undeclared_source (nodes : List Node) (edges : List Edge) :
    (parse_pipeline nodes edges).success = false ↔
      ∃ e ∈ edges, e.source ∉ nodes.map Node.id := by
  by_cases hall : ∀ e ∈ edges, e.source ∈ nodes.map Node.id
  · obtain ⟨b, hb, -⟩ := parse_wf_spec nodes edges hall
    have hsucc : (parse_pipeline nodes edges).success = true := by rw [hb]
    constructor
    · intro h
      rw [hsucc] at h
      cases h
    · rintro ⟨e, he, hs⟩
      exact absurd (hall e he) hs
  · have hnok : ¬ ∃ g2, buildEdges (initGraph nodes) edges = .ok g2 := by
      rw [buildEdges_ok_iff]
      intro hc
      exact hall fun e he => (mem_initGraph_keys nodes e.source).mp (hc e he)
    have hfail : (parse_pipeline nodes edges).success = false := by
      cases hbe : buildEdges (initGraph nodes) edges with
      | error k => simp [parse_pipeline, hbe]
      | ok g2 => exact absurd ⟨g2, hbe⟩ hnok
    refine ⟨fun _ => ?_, fun _ => hfail⟩
    push_neg at hall
    exact hall

/-- C3 counterexample: on nodes `[A]` and edges `[(A, X)]` with `X` an
undeclared target, the top-level DFS call on `A` returns cycle-free but has
recorded the undeclared node `X` in its visited set — `X` is visited by the
DFS, refuting "silently never visited". -/
theorem c3_counterexample :
    buildEdges (initGraph [nodeA]) [edgeAX] = .ok [("A", ["X"])] ∧
    isCyclic [("A", ["X"])] (fuelFor [("A", ["X"])]) "A" ⟨[], []⟩ =
      some (false, ⟨["X", "A"], []⟩) ∧
    "X" ∈ (DfsState.mk ["X", "A"] []).visited :=
  ⟨rfl, rfl, by decide⟩

/-- C3 (amended): an edge whose target id is not among the declared node ids
is not an error — the analysis still succeeds — and the presence of such
edges does not affect the `is_dag` verdict; only declared node ids are
iterated at the top level, but the DFS does mark the undeclared target as
visited when it is reached as a neighbor. -/
theorem c3_undeclared_target_tolerated (nodes : List Node) (edges : List Edge)
    (hwf : ∀ e ∈ edges, e.source ∈ nodes.map Node.id) :
    (parse_pipeline nodes edges).success = true ∧
    (parse_pipeline nodes edges).isDag =
      (parse_pipeline nodes
        (edges.filter (fun e => decide (e.target ∈ nodes.map Node.id)))).isDag := by
  have hwf2 : ∀ e ∈ edges.filter (fun e => decide (e.target ∈ nodes.map Node.id)),
      e.source ∈ nodes.map Node.id :=
    fun e he => hwf e (List.mem_of_mem_filter he)
  obtain ⟨b1, hb1, hiff1⟩ := parse_wf_spec nodes edges hwf
  obtain ⟨b2, hb2, hiff2⟩ := parse_wf_spec nodes _ hwf2
  refine ⟨by rw [hb1], ?_⟩
  rw [hb1, hb2]
  show (some b1 : Option Bool) = some b2
  have hbb : (b1 = true) ↔ (b2 = true) := by
    rw [hiff1, hiff2, cycle_iff_filter_target nodes edges hwf]
  rw [bool_eq_of_iff hbb]

theorem c3_witness :
    (∀ e ∈ [edgeAX], e.source ∈ [nodeA, nodeB].map Node.id) ∧
    (parse_pipeline [nodeA, nodeB] [edgeAX]).success = true ∧
    (parse_pipeline [nodeA, nodeB] [edgeAX]).isDag =
      (parse_pipeline [nodeA, nodeB]
        ([edgeAX].filter (fun e => decide (e.target ∈ [nodeA, nodeB].map Node.id)))).isDag :=
  ⟨by decide, c3_undeclared_target_tolerated [nodeA, nodeB] [edgeAX] (by decide)⟩

/-- C4: whenever the analysis does not fail, the returned `num_nodes` equals
the number of supplied node descriptors and `num_edges` the number of
supplied edge descriptors, duplicates included in both counts. -/
theorem c4_counts (nodes : List Node) (edges : List Edge) (r : AnalysisResult)
    (h : (parse_pipeline nodes edges).data = some r) :
    r.num_nodes = nodes.length ∧ r.num_edges = edges.length :=
  parse_data_counts nodes edges r h

theorem c4_witness :
    ((parse_pipeline [nodeA, nodeA] [edgeAA, edgeAA]).data = some ⟨2, 2, false⟩) ∧
    ((⟨2, 2, false⟩ : AnalysisResult).num_nodes = ([nodeA, nodeA] : List Node).length ∧
     (⟨2, 2, false⟩ : AnalysisResult).num_edges = ([edgeAA, edgeAA] : List Edge).length) :=
  ⟨by decide, c4_counts [nodeA, nodeA] [edgeAA, edgeAA] ⟨2, 2, false⟩ (by decide)⟩

/-- C5: every well-formed input (every edge source declared) yields a success
response; in particular the empty graph yields success with `num_nodes = 0`,
`num_edges = 0` and `is_dag = true`. -/
theorem c5_wellformed_success (nodes : List Node) (edges : List Edge)
    (hwf : ∀ e ∈ edges, e.source ∈ nodes.map Node.id) :
    (parse_pipeline nodes edges).success = true ∧
    (nodes = [] → edges = [] →
      parse_pipeline nodes edges =
        ⟨true, "Pipeline parsed successfully.", some ⟨0, 0, true⟩⟩) := by
  obtain ⟨b, hb, -⟩ := parse_wf_spec nodes edges hwf
  refine ⟨by rw [hb], ?_⟩
  rintro rfl rfl
  decide

theorem c5_witness :
    (∀ e ∈ ([] : List Edge), e.source ∈ ([] : List Node).map Node.id) ∧
    (parse_pipeline ([] : List Node) ([] : List Edge)).success = true ∧
    parse_pipeline ([] : List Node) ([] : List Edge) =
      ⟨true, "Pipeline parsed successfully.", some ⟨0, 0, true⟩⟩ :=
  ⟨by decide, (c5_wellformed_success [] [] (by decide)).1,
    (c5_wellformed_success [] [] (by decide)).2 rfl rfl⟩

/-- C6: the cycle-detection computation always terminates and returns a
result: with the fuel `runDagCheck` supplies, the fueled DFS never runs out
(for every adjacency map whatsoever). -/
theorem c6_cycle_check_terminates (g : Graph) : ∃ b, runDagCheck g = some b :=
  Option.isSome_iff_exists.mp (runDagCheck_isSome g)

/-- C7: for every well-formed input, permuting the edge list leaves the
`is_dag` verdict unchanged — only the total edge set matters. -/
theorem c7_edge_order_irrelevant (nodes : List Node) (edges1 edges2 : List Edge)
    (hwf : ∀ e ∈ edges1, e.source ∈ nodes.map Node.id)
    (hperm : edges1.Perm edges2) :
    (parse_pipeline nodes edges1).isDag = (parse_pipeline nodes edges2).isDag := by
  have hwf2 : ∀ e ∈ edges2, e.source ∈ nodes.map Node.id := fun e he =>
    hwf e (hperm.mem_iff.mpr he)
  obtain ⟨b1, hb1, hiff1⟩ := parse_wf_spec nodes edges1 hwf
  obtain ⟨b2, hb2, hiff2⟩ := parse_wf_spec nodes edges2 hwf2
  rw [hb1, hb2]
  show (some b1 : Option Bool) = some b2
  have hstep : edgeStep edges1 = edgeStep edges2 := by
    funext a c
    refine propext ⟨?_, ?_⟩
    · rintro ⟨e, he, hs, ht⟩
      exact ⟨e, hperm.mem_iff.mp he, hs, ht⟩
    · rintro ⟨e, he, hs, ht⟩
      exact ⟨e, hperm.mem_iff.mpr he, hs, ht⟩
  have hbb : (b1 = true) ↔ (b2 = true) := by rw [hiff1, hiff2, hstep]
  rw [bool_eq_of_iff hbb]

theorem c7_witness :
    (∀ e ∈ [edgeAB, edgeBC, edgeCA], e.source ∈ [nodeA, nodeB, nodeC].map Node.id) ∧
    ([edgeAB, edgeBC, edgeCA].Perm [edgeCA, edgeAB, edgeBC]) ∧
    (parse_pipeline [nodeA, nodeB, nodeC] [edgeAB, edgeBC, edgeCA]).isDag =
      (parse_pipeline [nodeA, nodeB, nodeC] [edgeCA, edgeAB, edgeBC]).isDag :=
  ⟨by decide, by decide,
    c7_edge_order_irrelevant [nodeA, nodeB, nodeC] [edgeAB, edgeBC, edgeCA]
      [edgeCA, edgeAB, edgeBC] (by decide) (by decide)⟩

/-- C8: every well-formed input containing a self-loop yields
`is_dag = false`. -/
theorem c8_self_loop_not_dag (nodes : List Node) (edges : List Edge)
    (hwf : ∀ e ∈ edges, e.source ∈ nodes.map Node.id)
    (hloop : ∃ e ∈ edges, e.source = e.target) :
    (parse_pipeline nodes edges).isDag = some false := by
  obtain ⟨b, hb, hiff⟩ := parse_wf_spec nodes edges hwf
  rw [hb]
  show (some b : Option Bool) = some false
  have hcyc : ∃ v, Relation.TransGen (edgeStep edges) v v := by
    obtain ⟨e, he, hst⟩ := hloop
    exact ⟨e.source, Relation.TransGen.single ⟨e, he, rfl, hst.symm⟩⟩
  have hbf : b = false := by
    cases b with
    | false => rfl
    | true => exact absurd hcyc (hiff.mp rfl)
  rw [hbf]

theorem c8_witness :
    (∀ e ∈ [edgeAA], e.source ∈ [nodeA].map Node.id) ∧
    (∃ e ∈ [edgeAA], e.source = e.target) ∧
    (parse_pipeline [nodeA] [edgeAA]).isDag = some false :=
  ⟨by decide, by decide, c8_self_loop_not_dag [nodeA] [edgeAA] (by decide) (by decide)⟩

/-- C9: when the node list declares the same id more than once, the adjacency
map holds a single entry per distinct id (its keys are exactly the distinct
declared ids, without duplicates), `num_nodes` still counts every descriptor,
and the `is_dag` verdict is the one for the same edges with the duplicate
node declarations removed. -/
theorem c9_duplicate_nodes (nodes : List Node) (edges : List Edge)
    (hdup : ¬ (nodes.map Node.id).Nodup) :
    ((initGraph nodes).map Prod.fst).Nodup ∧
    (∀ x, x ∈ (initGraph nodes).map Prod.fst ↔ x ∈ nodes.map Node.id) ∧
    (∀ r, (parse_pipeline nodes edges).data = some r → r.num_nodes = nodes.length) ∧
    (parse_pipeline nodes edges).isDag =
      (parse_pipeline (dedupNodes nodes) edges).isDag := by
  refine ⟨nodup_initGraph_keys nodes, fun x => mem_initGraph_keys nodes x,
    fun r h => (parse_data_counts nodes edges r h).1, ?_⟩
  cases hb : buildEdges (initGraph nodes) edges with
  | error k =>
    have h1 : parse_pipeline nodes edges =
        ⟨false, "Error while parsing pipeline: \x27" ++ k ++ "\x27", none⟩ := by
      simp [parse_pipeline, hb]
    have h2 : parse_pipeline (dedupNodes nodes) edges =
        ⟨false, "Error while parsing pipeline: \x27" ++ k ++ "\x27", none⟩ := by
      simp [parse_pipeline, initGraph_dedupNodes, hb]
    rw [h1, h2]
  | ok g =>
    cases hd : runDagCheck g with
    | none =>
      have h1 : parse_pipeline nodes edges =
          ⟨false, "Error while parsing pipeline: maximum recursion depth exceeded", none⟩ := by
        simp [parse_pipeline, hb, hd]
      have h2 : parse_pipeline (dedupNodes nodes) edges =
          ⟨false, "Error while parsing pipeline: maximum recursion depth exceeded", none⟩ := by
        simp [parse_pipeline, initGraph_dedupNodes, hb, hd]
      rw [h1, h2]
    | some b =>
      have h1 : parse_pipeline nodes edges =
          ⟨true, "Pipeline parsed successfully.",
            some ⟨nodes.length, edges.length, b⟩⟩ := by
        simp [parse_pipeline, hb, hd]
      have h2 : parse_pipeline (dedupNodes nodes) edges =
          ⟨true, "Pipeline parsed successfully.",
            some ⟨(dedupNodes nodes).length, edges.length, b⟩⟩ := by
        simp [parse_pipeline, initGraph_dedupNodes, hb, hd]
      rw [h1, h2]
      rfl

theorem c9_witness :
    (¬ (([nodeA, nodeA] : List Node).map Node.id).Nodup) ∧
    ((initGraph [nodeA, nodeA]).map Prod.fst).Nodup ∧
    (parse_pipeline [nodeA, nodeA] [edgeAA]).isDag =
      (parse_pipeline (dedupNodes [nodeA, nodeA]) [edgeAA]).isDag :=
  ⟨by decide, (c9_duplicate_nodes [nodeA, nodeA] [edgeAA] (by decide)).1,
    (c9_duplicate_nodes [nodeA, nodeA] [edgeAA] (by decide)).2.2.2⟩

/-- C10: with a non-empty `CORS_ORIGINS` value, `get_cors_origins` returns
the comma-separated entries with surrounding whitespace stripped followed by
the six fixed development default origins; when the variable is unset or
empty it returns exactly the six defaults. -/
theorem c10_cors_origins :
    get_cors_origins none =
      [ "http://localhost:3000", "http://localhost:3001", "http://localhost:8080",
        "http://localhost:8081", "http://127.0.0.1:3000", "http://127.0.0.1:8080" ] ∧
    get_cors_origins (some "") =
      [ "http://localhost:3000", "http://localhost:3001", "http://localhost:8080",
        "http://localhost:8081", "http://127.0.0.1:3000", "http://127.0.0.1:8080" ] ∧
    ∀ s : String, s ≠ "" →
      get_cors_origins (some s) =
        (s.splitOn ",").map String.trim ++
          [ "http://localhost:3000", "http://localhost:3001", "http://localhost:8080",
            "http://localhost:8081", "http://127.0.0.1:3000", "http://127.0.0.1:8080" ] := by
  refine ⟨rfl, rfl, ?_⟩
  intro s hs
  show (if s ≠ "" then ((s.splitOn ",").map (fun origin => origin.trim)) ++ default_origins
      else default_origins) =
    (s.splitOn ",").map String.trim ++
      [ "http://localhost:3000", "http://localhost:3001", "http://localhost:8080",
        "http://localhost:8081", "http://127.0.0.1:3000", "http://127.0.0.1:8080" ]
  rw [if_pos hs]
  rfl

theorem c10_witness :
    (" a ,b " : String) ≠ "" ∧
    get_cors_origins (some " a ,b ") =
      ((" a ,b " : String).splitOn ",").map String.trim ++
        [ "http://localhost:3000", "http://localhost:3001", "http://localhost:8080",
          "http://localhost:8081", "http://127.0.0.1:3000", "http://127.0.0.1:8080" ] :=
  ⟨by decide, c10_cors_origins.2.2 " a ,b " (by decide)⟩

end PipelineBuilder
